/-
Verification of the execution core of pan-lang-rs (src/src/ir.rs and
src/src/value.rs): lexical addressing, chained mutable environments, the ir
instruction set, literal materialization, and the closure invocation loop.

Modelling conventions (shallow embedding of the Rust source):
* `Gc<GcCell<Environment>>` references are modelled by an explicit heap: a
  `Heap` is a list of `Environment` frames and a reference is the frame's
  index.  Heap-mutating operations thread the heap explicitly.
* Rust panics (out-of-range lexical address, out-of-range storage index,
  `storage[..num_args]` with `num_args` beyond the storage length) are
  modelled by `Option` in the environment/storage primitives and by the
  `RunResult.fatal` outcome of the invocation loop.
* The invocation loop of `IrClosure::run` is Turing-complete, so the
  interpreter takes a fuel argument; `RunResult.outOfFuel` is an artifact of
  the embedding, never a behaviour of the source.
* `i64` is modelled as `Int` (no claim exercises integer overflow),
  `f64`/`OrderedFloat<f64>` as an opaque bit pattern (`Nat`) since no claim
  computes with floats, `char` as `Char`, `Rope` (a wrapper around `String`)
  as `String`, `Bytes` as `List Nat`.
* Lists nested inside the inductive value/instruction types are represented
  by mutually defined list types (`InstructionList`, `IrLiteralList`,
  `IrLiteralPairList`, `ValueList`, `ValuePairList`) so that decidable
  equality is derivable; they are plain cons-lists.
* `Vec<Value>`, `BTreeSet<Value>` and `BTreeMap<Value, Value>` inside
  `Value::Array/Set/Map` are `Gc<GcCell<...>>` shared cells in Rust; the
  claims under verification never observe aliasing of collection cells, so
  they are modelled by value: a list of elements, respectively an
  association list, into which `BTreeSet::insert`/`BTreeMap::insert` are
  modelled by `setInsert`/`mapInsert` (same key-equality behaviour: an
  existing equal set element is kept unchanged, an existing map key keeps
  its position but has its value replaced).
* A `BTreeSet<IrLiteral>`/`BTreeMap<IrLiteral, IrLiteral>` literal
  descriptor is modelled as the sequence of its entries in iteration order
  (ascending key order in Rust); `IrLiteral::to_value` only iterates the
  descriptor, so only this sequence matters.
* The `Fun` payload of `Value::Fun` and the body of `Value::apply` are
  referenced by src/src/ir.rs but absent from src/src/value.rs (the enum
  carries a `TODO functions` comment and `apply` is `unimplemented!()`);
  those two definitions are modelled from the spec and marked as such.
-/
import Mathlib

namespace Pan

/-- `DeBruijnPair` from src/src/ir.rs: `up` counts parent hops (0 is the
current environment), `index` addresses the binding within that frame. -/
structure DeBruijnPair where
  up : Nat
  index : Nat
deriving DecidableEq

/-- `Addr` from src/src/ir.rs: instructions address either a slot of the
per-invocation temporary storage or an environment binding. -/
inductive Addr where
  | Storage (i : Nat)
  | Environment (p : DeBruijnPair)
deriving DecidableEq

mutual
/-- `IrFunction` from src/src/ir.rs: a shared instruction unit.
Constructor argument order: `args`, `storage_size`, `env_size`, `code`. -/
inductive IrFunction where
  | mk (args storage_size env_size : Nat) (code : InstructionList)
deriving DecidableEq

/-- Cons-list of instructions (the `Box<[Instruction]>` code body). -/
inductive InstructionList where
  | nil
  | cons (i : Instruction) (rest : InstructionList)
deriving DecidableEq

/-- `Instruction` from src/src/ir.rs. -/
inductive Instruction where
  | Write (src dst : Addr)
  | Apply (fn : Addr) (num_args : Nat) (dst : Addr)
  | Jump (target : Nat)
  | CondJump (a : Addr) (target : Nat)
  | Literal (lit : IrLiteral) (dst : Addr)
  | ThrowFlag
  | Catch (offset : Nat)
  | Return (a : Addr)
  | Throw (a : Addr)
deriving DecidableEq

/-- `IrLiteral` from src/src/ir.rs.  `Float` carries the `f64` bit pattern;
`Set`/`Map` carry the descriptor entries in iteration order. -/
inductive IrLiteral where
  | Nil
  | Bool (b : Bool)
  | Int (n : Int)
  | Float (bits : Nat)
  | Char (c : Char)
  | String (s : String)
  | Bytes (bs : List Nat)
  | Array (xs : IrLiteralList)
  | Set (xs : IrLiteralList)
  | Map (entries : IrLiteralPairList)
  | Fun (f : IrFunction) (entry : Nat)
deriving DecidableEq

/-- Cons-list of literal descriptors. -/
inductive IrLiteralList where
  | nil
  | cons (x : IrLiteral) (rest : IrLiteralList)
deriving DecidableEq

/-- Cons-list of key/value descriptor pairs, in iteration order. -/
inductive IrLiteralPairList where
  | nil
  | cons (key val : IrLiteral) (rest : IrLiteralPairList)
deriving DecidableEq
end

/-- Projection for the `args` field of `IrFunction` (the maximum number of
arguments the function takes; any additional arguments are ignored). -/
def IrFunction.args : IrFunction → Nat
  | .mk a _ _ _ => a

/-- Projection for the `storage_size` field of `IrFunction`. -/
def IrFunction.storage_size : IrFunction → Nat
  | .mk _ s _ _ => s

/-- Projection for the `env_size` field of `IrFunction`. -/
def IrFunction.env_size : IrFunction → Nat
  | .mk _ _ e _ => e

/-- Projection for the `code` field of `IrFunction`. -/
def IrFunction.code : IrFunction → InstructionList
  | .mk _ _ _ c => c

/-- Indexing into the code body (`self.fun.code[pc]` in Rust; `none` models
the index-out-of-bounds panic). -/
def InstructionList.get? : InstructionList → Nat → Option Instruction
  | .nil, _ => none
  | .cons i _, 0 => some i
  | .cons _ rest, n + 1 => rest.get? n

/-- Builds a code body from a plain list (convenience for examples). -/
def InstructionList.ofList : List Instruction → InstructionList
  | [] => .nil
  | i :: rest => .cons i (ofList rest)

/-- `IrClosure` from src/src/ir.rs: an `IrFunction` together with an
environment reference and the entry offset.  The Rust field `fun` is a Lean
keyword, so it is called `fn` here. -/
structure IrClosure where
  env : Nat
  fn : IrFunction
  entry : Nat
deriving DecidableEq

/-- Modelled from the spec: the `Fun` runtime type referenced by
`Value::Fun(Fun::Pan(..))` in src/src/ir.rs but missing from
src/src/value.rs - "function (itself a tagged union over interpreted
closure and native function)".  A native function is identified by an id
interpreted by the host (see `NativeImpl`). -/
inductive Fun where
  | Pan (c : IrClosure)
  | Native (id : Nat)
deriving DecidableEq

mutual
/-- `Value` from src/src/value.rs, extended with the `Fun` variant that
src/src/ir.rs constructs (`Value::Fun(Fun::Pan(..))`) and that the spec
lists in the runtime value union (the variant is a `TODO` in
src/src/value.rs). -/
inductive Value where
  | Nil
  | Bool (b : Bool)
  | Int (n : Int)
  | Float (bits : Nat)
  | Char (c : Char)
  | String (s : String)
  | Bytes (bs : List Nat)
  | Array (xs : ValueList)
  | Set (xs : ValueList)
  | Map (entries : ValuePairList)
  | Fun (f : Fun)
deriving DecidableEq

/-- Cons-list of runtime values (contents of a `Vec<Value>`/`BTreeSet`). -/
inductive ValueList where
  | nil
  | cons (v : Value) (rest : ValueList)
deriving DecidableEq

/-- Association list of runtime values (contents of a `BTreeMap`). -/
inductive ValuePairList where
  | nil
  | cons (key val : Value) (rest : ValuePairList)
deriving DecidableEq
end

/-- List-style induction for `ValueList` (the mutual-family recursor has
multiple motives; the lemmas below only ever recurse along the tail). -/
theorem ValueList.recList {motive : ValueList → Prop}
    (nil : motive .nil)
    (cons : ∀ (v : Value) (rest : ValueList), motive rest → motive (.cons v rest)) :
    ∀ s : ValueList, motive s
  | .nil => nil
  | .cons v rest => cons v rest (ValueList.recList nil cons rest)

/-- List-style induction for `ValuePairList`. -/
theorem ValuePairList.recPairs {motive : ValuePairList → Prop}
    (nil : motive .nil)
    (cons : ∀ (key val : Value) (rest : ValuePairList), motive rest → motive (.cons key val rest)) :
    ∀ m : ValuePairList, motive m
  | .nil => nil
  | .cons k v rest => cons k v rest (ValuePairList.recPairs nil cons rest)

/-- List-style induction for `IrLiteralList`. -/
theorem IrLiteralList.recLits {motive : IrLiteralList → Prop}
    (nil : motive .nil)
    (cons : ∀ (x : IrLiteral) (rest : IrLiteralList), motive rest → motive (.cons x rest)) :
    ∀ s : IrLiteralList, motive s
  | .nil => nil
  | .cons x rest => cons x rest (IrLiteralList.recLits nil cons rest)

/-- List-style induction for `IrLiteralPairList`. -/
theorem IrLiteralPairList.recLitPairs {motive : IrLiteralPairList → Prop}
    (nil : motive .nil)
    (cons : ∀ (key val : IrLiteral) (rest : IrLiteralPairList),
      motive rest → motive (.cons key val rest)) :
    ∀ m : IrLiteralPairList, motive m
  | .nil => nil
  | .cons k v rest => cons k v rest (IrLiteralPairList.recLitPairs nil cons rest)

/-- `Value::nil()` from src/src/value.rs. -/
def Value.nil : Value := Value.Nil

/-- `Value::truthy` from src/src/value.rs: only `Nil` and `Bool(false)` are
falsy.  (Top-level name: inside the `Value` namespace the constructor
`Value.Bool` would shadow the type `Bool` in the signature.) -/
def truthy : Value → Bool
  | .Nil => false
  | .Bool false => false
  | _ => true

/-- `Environment` from src/src/ir.rs: the bindings local to this frame plus
an optional reference to the parent frame (a heap index standing for
`Gc<GcCell<Environment>>`). -/
structure Environment where
  bindings : List Value
  parent : Option Nat
deriving DecidableEq

/-- The explicit heap of environment frames; a `Gc<GcCell<Environment>>`
reference is an index into this list. -/
abbrev Heap := List Environment

/-- Recursion worker for `Environment::get` (src/src/ir.rs): if `up = 0`
read slot `index` of this frame, else delegate to the parent.  `none`
models the panic on an invalid address. -/
def Environment.getUp (h : Heap) : Nat → Nat → Nat → Option Value
  | 0, e, i =>
    match h[e]? with
    | none => none
    | some f => f.bindings[i]?
  | u + 1, e, i =>
    match h[e]? with
    | none => none
    | some f =>
      match f.parent with
      | none => none
      | some p => Environment.getUp h u p i

/-- `Environment::get` from src/src/ir.rs, on the frame `e` of heap `h`. -/
def Environment.get (h : Heap) (e : Nat) (a : DeBruijnPair) : Option Value :=
  Environment.getUp h a.up e a.index

/-- Recursion worker for `Environment::set` (src/src/ir.rs): same traversal
as `get`, mutating the resolved slot in place.  Only the finally reached
frame changes; `none` models the panic on an invalid address. -/
def Environment.setUp (h : Heap) : Nat → Nat → Nat → Value → Option Heap
  | 0, e, i, v =>
    match h[e]? with
    | none => none
    | some f =>
      if i < f.bindings.length then
        some (h.set e ⟨f.bindings.set i v, f.parent⟩)
      else none
  | u + 1, e, i, v =>
    match h[e]? with
    | none => none
    | some f =>
      match f.parent with
      | none => none
      | some p => Environment.setUp h u p i v

/-- `Environment::set` from src/src/ir.rs, on the frame `e` of heap `h`. -/
def Environment.set (h : Heap) (e : Nat) (a : DeBruijnPair) (v : Value) : Option Heap :=
  Environment.setUp h a.up e a.index v

/-- `Environment::child` from src/src/ir.rs: allocate a new frame of
`env_size` slots, all initialized to `Value::nil()`, linked to `parent`.
Returns the grown heap and the reference to the new frame. -/
def Environment.child (h : Heap) (parent : Nat) (env_size : Nat) : Heap × Nat :=
  (h ++ [{ bindings := List.replicate env_size Value.nil, parent := some parent }], h.length)

/-- The argument-moving prelude of `IrClosure::run` (src/src/ir.rs):
`for (i, arg) in args.iter().take(self.fun.args).enumerate()` writes `arg`
to the environment slot `(0, i)` of the closure's own frame.  `i` is the
index of the next slot to write. -/
def writeArgs (h : Heap) (env : Nat) : Nat → List Value → Option Heap
  | _, [] => some h
  | i, a :: rest =>
    match Environment.set h env ⟨0, i⟩ a with
    | none => none
    | some h₂ => writeArgs h₂ env (i + 1) rest

/-- `BTreeSet::insert` on materialized values (used by
`IrLiteral::to_value` for set descriptors): an element equal to an existing
one leaves the set unchanged. -/
def setInsert : ValueList → Value → ValueList
  | .nil, v => .cons v .nil
  | .cons v₀ rest, v => if v₀ = v then ValueList.cons v₀ rest else .cons v₀ (setInsert rest v)

/-- `BTreeMap::insert` on materialized values (used by
`IrLiteral::to_value` for map descriptors): an existing equal key keeps its
place but has its value replaced; a new key goes to the end of the
association list. -/
def mapInsert : ValuePairList → Value → Value → ValuePairList
  | .nil, k, v => .cons k v .nil
  | .cons k₀ v₀ rest, k, v =>
    if k₀ = k then ValuePairList.cons k₀ v rest else .cons k₀ v₀ (mapInsert rest k v)

/-- `BTreeMap` lookup on the association-list model. -/
def mapLookup : ValuePairList → Value → Option Value
  | .nil, _ => none
  | .cons k₀ v₀ rest, k => if k₀ = k then some v₀ else mapLookup rest k

/-- Conversion to an ordinary list (specification helper). -/
def ValueList.toList : ValueList → List Value
  | .nil => []
  | .cons v rest => v :: rest.toList

/-- The keys of an association list, in order (specification helper). -/
def ValuePairList.keys : ValuePairList → List Value
  | .nil => []
  | .cons k _ rest => k :: rest.keys

/-- The value of the last entry of `ps` whose key equals `k`, if any:
the "later descriptor entry wins" reading of duplicate keys. -/
def lastWins : ValuePairList → Value → Option Value
  | .nil, _ => none
  | .cons k₀ v₀ rest, k =>
    match lastWins rest k with
    | some v => some v
    | none => if k₀ = k then some v₀ else none

/-- Folds `mapInsert` over a sequence of entries, in order. -/
def insertAll (acc : ValuePairList) : ValuePairList → ValuePairList
  | .nil => acc
  | .cons k v rest => insertAll (mapInsert acc k v) rest

/-- Folds `setInsert` over a sequence of elements, in order. -/
def setInsertAll (acc : ValueList) : ValueList → ValueList
  | .nil => acc
  | .cons v rest => setInsertAll (setInsert acc v) rest

mutual
/-- `IrLiteral::to_value` from src/src/ir.rs: materialize a literal
descriptor against the environment `env`, threading the heap (function
literals allocate a child frame). -/
def IrLiteral.toValue : IrLiteral → Nat → Heap → Heap × Value
  | .Nil, _, h => (h, .Nil)
  | .Bool b, _, h => (h, .Bool b)
  | .Int n, _, h => (h, .Int n)
  | .Float bits, _, h => (h, .Float bits)
  | .Char c, _, h => (h, .Char c)
  | .String s, _, h => (h, .String s)
  | .Bytes bs, _, h => (h, .Bytes bs)
  | .Array xs, env, h =>
    match toValueList xs env h with
    | (h₂, vs) => (h₂, .Array vs)
  | .Set xs, env, h =>
    match toValueSet xs env h .nil with
    | (h₂, s) => (h₂, .Set s)
  | .Map es, env, h =>
    match toValueMap es env h .nil with
    | (h₂, m) => (h₂, .Map m)
  | .Fun f entry, env, h =>
    match Environment.child h env f.env_size with
    | (h₂, e) => (h₂, .Fun (.Pan ⟨e, f, entry⟩))

/-- Materializes the elements of an array descriptor, in order. -/
def toValueList : IrLiteralList → Nat → Heap → Heap × ValueList
  | .nil, _, h => (h, .nil)
  | .cons x rest, env, h =>
    match x.toValue env h with
    | (h₂, v) =>
      match toValueList rest env h₂ with
      | (h₃, vs) => (h₃, .cons v vs)

/-- Materializes and inserts the elements of a set descriptor, in order
(the `for inner in inners { set.insert(inner.to_value(env)) }` loop). -/
def toValueSet : IrLiteralList → Nat → Heap → ValueList → Heap × ValueList
  | .nil, _, h, acc => (h, acc)
  | .cons x rest, env, h, acc =>
    match x.toValue env h with
    | (h₂, v) => toValueSet rest env h₂ (setInsert acc v)

/-- Materializes and inserts the entries of a map descriptor, in order
(the `for (key, val) in inners { map.insert(key.to_value, val.to_value) }`
loop; the key is materialized before its value). -/
def toValueMap : IrLiteralPairList → Nat → Heap → ValuePairList → Heap × ValuePairList
  | .nil, _, h, acc => (h, acc)
  | .cons k v rest, env, h, acc =>
    match k.toValue env h with
    | (h₂, kv) =>
      match v.toValue env h₂ with
      | (h₃, vv) => toValueMap rest env h₃ (mapInsert acc kv vv)
end

/-- Materializes the entries of a map descriptor in order WITHOUT the map
insertion (specification helper used to state the last-write-wins law). -/
def toValuePairs : IrLiteralPairList → Nat → Heap → Heap × ValuePairList
  | .nil, _, h => (h, .nil)
  | .cons k v rest, env, h =>
    match k.toValue env h with
    | (h₂, kv) =>
      match v.toValue env h₂ with
      | (h₃, vv) =>
        match toValuePairs rest env h₃ with
        | (h₄, ps) => (h₄, .cons kv vv ps)

/-- `NO_CATCH` from src/src/ir.rs (`std::usize::MAX` on a 64-bit host): if
the catch offset has this value, a thrown value is rethrown rather than
caught. -/
def NO_CATCH : Nat := 2 ^ 64 - 1

/-- The local state of one execution of the invocation loop of
`IrClosure::run`: the scratch storage, the `pc`, the catch offset (the
Rust local `catch`; renamed because `catch` is a Lean keyword) and the
throw flag (the Rust local `throw`). -/
structure LoopState where
  storage : List Value
  pc : Nat
  catchOffset : Nat
  throwFlag : Bool
deriving DecidableEq

/-- Outcome of an invocation: `Ok(value)`, `Err(thrown)`, a Rust panic
(`fatal`), or fuel exhaustion (an artifact of the embedding only). -/
inductive RunResult where
  | ok (v : Value)
  | thrown (v : Value)
  | fatal
  | outOfFuel
deriving DecidableEq

/-- Modelled from the spec: the semantics of the native functions of the
host (the built-in/native function library is an external collaborator
outside src/); a native function maps an argument list to a success or
failure value. -/
abbrev NativeImpl := Nat → List Value → Except Value Value

/-- Resolution of an `Addr` to a value: a storage index (panic modelled by
`none` when out of range) or an environment lookup. -/
def readAddr (h : Heap) (env : Nat) (storage : List Value) : Addr → Option Value
  | .Storage i => storage[i]?
  | .Environment p => Environment.get h env p

/-- Writing a value to an `Addr`: either into the storage or into the
environment (the heap).  Returns the updated heap and storage. -/
def writeAddr (h : Heap) (env : Nat) (storage : List Value) : Addr → Value → Option (Heap × List Value)
  | .Storage i, v => if i < storage.length then some (h, storage.set i v) else none
  | .Environment p, v =>
    match Environment.set h env p v with
    | none => none
    | some h₂ => some (h₂, storage)

/-- The three mutually recursive activities of the execution core:
applying a callee value (`Value::apply`), starting an invocation
(`IrClosure::run`'s prelude), and executing the instruction loop.  Packing
them into one type lets `exec` recurse structurally on its fuel, so that
closed executions reduce definitionally. -/
inductive Call where
  | callApply (callee : Value) (args : List Value)
  | callRun (c : IrClosure) (args : List Value)
  | callLoop (f : IrFunction) (env : Nat) (st : LoopState)

/-- The execution core: `callLoop` is one step of the instruction loop of
`IrClosure::run` (src/src/ir.rs), `callRun` is the entry of
`IrClosure::run` (storage allocation plus the argument-moving prelude),
and `callApply` is `Value::apply` (modelled from the spec, see
`Value.apply`).  Fuel bounds the depth of the call tree; every recursive
call decrements it, and a sequence of loop steps decrements it once per
executed instruction. -/
def exec (ν : NativeImpl) : Nat → Call → Heap → Heap × RunResult
  | 0, _, h => (h, .outOfFuel)
  | fuel + 1, .callApply callee args, h =>
    match callee with
    | .Fun (.Pan c) => exec ν fuel (.callRun c args) h
    | .Fun (.Native id) =>
      (h, match ν id args with
          | .ok r => .ok r
          | .error e => .thrown e)
    | _ => (h, .fatal)
  | fuel + 1, .callRun c args, h =>
    match writeArgs h c.env 0 (args.take c.fn.args) with
    | none => (h, .fatal)
    | some h₂ =>
      exec ν fuel
        (.callLoop c.fn c.env ⟨List.replicate c.fn.storage_size Value.nil, c.entry, NO_CATCH, false⟩) h₂
  | fuel + 1, .callLoop f env st, h =>
    match f.code.get? st.pc with
    | none => (h, .fatal)
    | some (.Write src dst) =>
      match readAddr h env st.storage src with
      | none => (h, .fatal)
      | some v =>
        match writeAddr h env st.storage dst v with
        | none => (h, .fatal)
        | some (h₂, stor) =>
          exec ν fuel (.callLoop f env ⟨stor, st.pc + 1, st.catchOffset, st.throwFlag⟩) h₂
    | some (.Apply fnA numArgs dst) =>
      match readAddr h env st.storage fnA with
      | none => (h, .fatal)
      | some callee =>
        if numArgs ≤ st.storage.length then
          match exec ν fuel (.callApply callee (st.storage.take numArgs)) h with
          | (h₂, .ok ret) =>
            match writeAddr h₂ env st.storage dst ret with
            | none => (h₂, .fatal)
            | some (h₃, stor) =>
              exec ν fuel (.callLoop f env ⟨stor, st.pc + 1, st.catchOffset, st.throwFlag⟩) h₃
          | (h₂, .thrown t) =>
            if st.catchOffset = NO_CATCH then (h₂, .thrown t)
            else
              match st.storage with
              | [] => (h₂, .fatal)
              | _ :: srest =>
                exec ν fuel (.callLoop f env ⟨t :: srest, st.catchOffset, st.catchOffset, st.throwFlag⟩) h₂
          | (h₂, .fatal) => (h₂, .fatal)
          | (h₂, .outOfFuel) => (h₂, .outOfFuel)
        else (h, .fatal)
    | some (.Jump target) =>
      exec ν fuel (.callLoop f env ⟨st.storage, target, st.catchOffset, st.throwFlag⟩) h
    | some (.CondJump a target) =>
      match readAddr h env st.storage a with
      | none => (h, .fatal)
      | some v =>
        exec ν fuel
          (.callLoop f env ⟨st.storage, if truthy v then target else st.pc + 1, st.catchOffset, st.throwFlag⟩) h
    | some (.Literal lit dst) =>
      match lit.toValue env h with
      | (h₂, v) =>
        match writeAddr h₂ env st.storage dst v with
        | none => (h₂, .fatal)
        | some (h₃, stor) =>
          exec ν fuel (.callLoop f env ⟨stor, st.pc + 1, st.catchOffset, st.throwFlag⟩) h₃
    | some .ThrowFlag =>
      exec ν fuel (.callLoop f env ⟨st.storage, st.pc + 1, st.catchOffset, true⟩) h
    | some (.Catch offset) =>
      exec ν fuel (.callLoop f env ⟨st.storage, st.pc + 1, offset, st.throwFlag⟩) h
    | some (.Return a) =>
      match readAddr h env st.storage a with
      | none => (h, .fatal)
      | some v => (h, if st.throwFlag then .thrown v else .ok v)
    | some (.Throw a) =>
      match readAddr h env st.storage a with
      | none => (h, .fatal)
      | some v => (h, .thrown v)

/-- The instruction loop of `IrClosure::run`, started at state `st`. -/
def loop (ν : NativeImpl) (fuel : Nat) (f : IrFunction) (env : Nat) (st : LoopState) (h : Heap) :
    Heap × RunResult :=
  exec ν fuel (.callLoop f env st) h

/-- `IrClosure::run` from src/src/ir.rs: allocate the nil-initialized
scratch storage, move the arguments into the closure's environment, then
execute the instruction loop from the closure's entry offset. -/
def IrClosure.run (ν : NativeImpl) (fuel : Nat) (h : Heap) (c : IrClosure) (args : List Value) :
    Heap × RunResult :=
  exec ν fuel (.callRun c args) h

/-- Modelled from the spec: `Value::apply` - `apply(callee, args)` invokes
any function-typed value (interpreted closure or native) with a list of
argument values; a closure's apply forwards into the invocation loop.
The body in src/src/value.rs is `unimplemented!()` (a stub), so only the
spec's contract is available; applying a non-function value is left as a
fatal error (the stub panics unconditionally). -/
def Value.apply (ν : NativeImpl) (fuel : Nat) (v : Value) (args : List Value) (h : Heap) :
    Heap × RunResult :=
  exec ν fuel (.callApply v args) h

/-- The apply capability of a single interpreter activation that cannot
re-enter the interpreter: it can invoke native code (which runs outside
the invocation loop) but treats any interpreted-closure callee as a fatal
error.  It consumes one fuel tick exactly like `exec` does on a
`callApply`, so that `loopFlat` mirrors `loop` step for step. -/
def flatApplyTick (ν : NativeImpl) (fuel : Nat) (callee : Value) (args : List Value) (h : Heap) :
    Heap × RunResult :=
  match fuel with
  | 0 => (h, .outOfFuel)
  | _ + 1 =>
    match callee with
    | .Fun (.Native id) =>
      (h, match ν id args with
          | .ok r => .ok r
          | .error e => .thrown e)
    | _ => (h, .fatal)

/-- A single activation of the invocation loop: identical to the
`callLoop` case of `exec` except that applying an interpreted closure is
impossible (`flatApplyTick`), so `loopFlat` provably never nests a second
interpreter activation - the formal counterpart of "no host call-stack
growth". -/
def loopFlat (ν : NativeImpl) : Nat → IrFunction → Nat → LoopState → Heap → Heap × RunResult
  | 0, _, _, _, h => (h, .outOfFuel)
  | fuel + 1, f, env, st, h =>
    match f.code.get? st.pc with
    | none => (h, .fatal)
    | some (.Write src dst) =>
      match readAddr h env st.storage src with
      | none => (h, .fatal)
      | some v =>
        match writeAddr h env st.storage dst v with
        | none => (h, .fatal)
        | some (h₂, stor) =>
          loopFlat ν fuel f env ⟨stor, st.pc + 1, st.catchOffset, st.throwFlag⟩ h₂
    | some (.Apply fnA numArgs dst) =>
      match readAddr h env st.storage fnA with
      | none => (h, .fatal)
      | some callee =>
        if numArgs ≤ st.storage.length then
          match flatApplyTick ν fuel callee (st.storage.take numArgs) h with
          | (h₂, .ok ret) =>
            match writeAddr h₂ env st.storage dst ret with
            | none => (h₂, .fatal)
            | some (h₃, stor) =>
              loopFlat ν fuel f env ⟨stor, st.pc + 1, st.catchOffset, st.throwFlag⟩ h₃
          | (h₂, .thrown t) =>
            if st.catchOffset = NO_CATCH then (h₂, .thrown t)
            else
              match st.storage with
              | [] => (h₂, .fatal)
              | _ :: srest =>
                loopFlat ν fuel f env ⟨t :: srest, st.catchOffset, st.catchOffset, st.throwFlag⟩ h₂
          | (h₂, .fatal) => (h₂, .fatal)
          | (h₂, .outOfFuel) => (h₂, .outOfFuel)
        else (h, .fatal)
    | some (.Jump target) =>
      loopFlat ν fuel f env ⟨st.storage, target, st.catchOffset, st.throwFlag⟩ h
    | some (.CondJump a target) =>
      match readAddr h env st.storage a with
      | none => (h, .fatal)
      | some v =>
        loopFlat ν fuel f env ⟨st.storage, if truthy v then target else st.pc + 1, st.catchOffset, st.throwFlag⟩ h
    | some (.Literal lit dst) =>
      match lit.toValue env h with
      | (h₂, v) =>
        match writeAddr h₂ env st.storage dst v with
        | none => (h₂, .fatal)
        | some (h₃, stor) =>
          loopFlat ν fuel f env ⟨stor, st.pc + 1, st.catchOffset, st.throwFlag⟩ h₃
    | some .ThrowFlag =>
      loopFlat ν fuel f env ⟨st.storage, st.pc + 1, st.catchOffset, true⟩ h
    | some (.Catch offset) =>
      loopFlat ν fuel f env ⟨st.storage, st.pc + 1, offset, st.throwFlag⟩ h
    | some (.Return a) =>
      match readAddr h env st.storage a with
      | none => (h, .fatal)
      | some v => (h, if st.throwFlag then .thrown v else .ok v)
    | some (.Throw a) =>
      match readAddr h env st.storage a with
      | none => (h, .fatal)
      | some v => (h, .thrown v)

/-! Environment lemmas: a successful `set` keeps the heap's shape (length
and every frame's parent link) and only rewrites the one addressed slot. -/

theorem Environment.setUp_shape :
    ∀ (u e i : Nat) (v : Value) (h h₂ : Heap),
      Environment.setUp h u e i v = some h₂ →
      h₂.length = h.length ∧
        ∀ j : Nat, (h₂[j]?).map Environment.parent = (h[j]?).map Environment.parent := by
  intro u
  induction u with
  | zero =>
    intro e i v h h₂ hset
    simp only [Environment.setUp] at hset
    cases hf : h[e]? with
    | none => simp [hf] at hset
    | some f =>
      simp only [hf] at hset
      by_cases hi : i < f.bindings.length
      · simp only [if_pos hi, Option.some.injEq] at hset
        subst hset
        have he : e < h.length := (List.getElem?_eq_some.mp hf).1
        refine ⟨by simp, fun j : Nat => ?_⟩
        rw [List.getElem?_set]
        by_cases hej : e = j
        · subst hej
          simp [hf, he]
        · simp [hej]
      · simp [if_neg hi] at hset
  | succ u ih =>
    intro e i v h h₂ hset
    simp only [Environment.setUp] at hset
    cases hf : h[e]? with
    | none => simp [hf] at hset
    | some f =>
      simp only [hf] at hset
      cases hp : f.parent with
      | none => simp [hp] at hset
      | some p =>
        simp only [hp] at hset
        exact ih p i v h h₂ hset

theorem Environment.getUp_setUp :
    ∀ (u e i : Nat) (v : Value) (h h₂ : Heap),
      Environment.setUp h u e i v = some h₂ →
      Environment.getUp h₂ u e i = some v := by
  intro u
  induction u with
  | zero =>
    intro e i v h h₂ hset
    simp only [Environment.setUp] at hset
    cases hf : h[e]? with
    | none => simp [hf] at hset
    | some f =>
      simp only [hf] at hset
      by_cases hi : i < f.bindings.length
      · simp only [if_pos hi, Option.some.injEq] at hset
        subst hset
        have he : e < h.length := (List.getElem?_eq_some.mp hf).1
        simp only [Environment.getUp]
        rw [List.getElem?_set_eq_of_lt _ he]
        exact List.getElem?_set_eq_of_lt _ hi
      · simp [if_neg hi] at hset
  | succ u ih =>
    intro e i v h h₂ hset
    simp only [Environment.setUp] at hset
    cases hf : h[e]? with
    | none => simp [hf] at hset
    | some f =>
      simp only [hf] at hset
      cases hp : f.parent with
      | none => simp [hp] at hset
      | some p =>
        simp only [hp] at hset
        obtain ⟨hlen, hpar⟩ := Environment.setUp_shape u p i v h h₂ hset
        have hpe := hpar e
        rw [hf] at hpe
        cases hfe : h₂[e]? with
        | none => rw [hfe] at hpe; simp at hpe
        | some f₂ =>
          rw [hfe] at hpe
          simp only [Option.map_some', Option.some.injEq] at hpe
          simp only [Environment.getUp, hfe, hpe, hp]
          exact ih p i v h h₂ hset

/-- C6: for every valid lexical address `a` in a well-formed frame chain
and every value `v`, `Environment::get(a)` performed after
`Environment::set(a, v)` returns `v`.  Validity of the address for the
chain (at most the chain's depth of `up` hops, `index` within the target
frame) is exactly the condition under which `set` succeeds. -/
theorem C6_get_after_set (h h₂ : Heap) (e : Nat) (a : DeBruijnPair) (v : Value)
    (hset : Environment.set h e a v = some h₂) :
    Environment.get h₂ e a = some v :=
  Environment.getUp_setUp a.up e a.index v h h₂ hset

theorem C6_get_after_set_witness :
    Environment.set [⟨[Value.Nil, Value.Nil], none⟩, ⟨[Value.Nil], some 0⟩] 1 ⟨1, 1⟩ (Value.Int 5)
        = some [⟨[Value.Nil, Value.Int 5], none⟩, ⟨[Value.Nil], some 0⟩]
      ∧ Environment.get [⟨[Value.Nil, Value.Int 5], none⟩, ⟨[Value.Nil], some 0⟩] 1 ⟨1, 1⟩
        = some (Value.Int 5) :=
  ⟨rfl,
    C6_get_after_set [⟨[Value.Nil, Value.Nil], none⟩, ⟨[Value.Nil], some 0⟩]
      [⟨[Value.Nil, Value.Int 5], none⟩, ⟨[Value.Nil], some 0⟩] 1 ⟨1, 1⟩ (Value.Int 5) rfl⟩

/-- C1: the runtime value union includes a function variant (a tagged union
over interpreted closure and native function); `Value.apply` on an
interpreted closure forwards into the invocation loop (`IrClosure.run`),
`Value.apply` on a native function returns the native outcome, which is
always a success value or a failure value. -/
theorem C1_apply_function_dispatch :
    (∀ (ν : NativeImpl) (fuel : Nat) (c : IrClosure) (args : List Value) (h : Heap),
        Value.apply ν (fuel + 1) (Value.Fun (Fun.Pan c)) args h = IrClosure.run ν fuel h c args)
    ∧ (∀ (ν : NativeImpl) (fuel : Nat) (id : Nat) (args : List Value) (h : Heap),
        Value.apply ν (fuel + 1) (Value.Fun (Fun.Native id)) args h =
          (h, match ν id args with
              | .ok r => RunResult.ok r
              | .error e => RunResult.thrown e))
    ∧ (∀ (ν : NativeImpl) (fuel : Nat) (id : Nat) (args : List Value) (h : Heap),
        ∃ v, Value.apply ν (fuel + 1) (Value.Fun (Fun.Native id)) args h = (h, RunResult.ok v)
          ∨ Value.apply ν (fuel + 1) (Value.Fun (Fun.Native id)) args h = (h, RunResult.thrown v)) := by
  refine ⟨fun ν fuel c args h => rfl, fun ν fuel id args h => rfl, fun ν fuel id args h => ?_⟩
  cases hres : ν id args with
  | ok r => exact ⟨r, Or.inl (by simp [Value.apply, exec, hres])⟩
  | error e => exact ⟨e, Or.inr (by simp [Value.apply, exec, hres])⟩

/-- C5: executing a `Throw` instruction always terminates the invocation
with a failure result equal to the addressed value, for every state of the
pending-throw mark (`st.throwFlag`) and of the catch offset
(`st.catchOffset`). -/
theorem C5_throw_always_fails (ν : NativeImpl) (fuel : Nat) (f : IrFunction) (env : Nat)
    (st : LoopState) (h : Heap) (a : Addr) (v : Value)
    (hinstr : f.code.get? st.pc = some (.Throw a))
    (hread : readAddr h env st.storage a = some v) :
    loop ν (fuel + 1) f env st h = (h, .thrown v) := by
  simp [loop, exec, hinstr, hread]

/-- A native whose every call throws `Int 9` (example material). -/
def exThrower : NativeImpl := fun _ _ => .error (Value.Int 9)

/-- A body that is a single `Throw` of storage slot 0 (example material). -/
def exThrowFun : IrFunction := .mk 0 1 0 (.ofList [.Throw (.Storage 0)])

theorem C5_throw_always_fails_witness :
    loop exThrower 1 exThrowFun 0 ⟨[Value.Int 3], 0, 7, true⟩ [] = ([], .thrown (Value.Int 3)) :=
  C5_throw_always_fails exThrower 0 exThrowFun 0 ⟨[Value.Int 3], 0, 7, true⟩ [] (.Storage 0)
    (Value.Int 3) rfl rfl

/-- C3: if an `Apply` instruction's callee fails while no catch target is
registered (`st.catchOffset = NO_CATCH`), the invocation terminates
immediately with that failure value as its own failure result - the loop's
outcome is the thrown value itself, so no further instruction of the
invocation executes. -/
theorem C3_uncaught_apply_failure (ν : NativeImpl) (fuel : Nat) (f : IrFunction) (env : Nat)
    (st : LoopState) (h h₂ : Heap) (fnA : Addr) (n : Nat) (dst : Addr) (callee t : Value)
    (hinstr : f.code.get? st.pc = some (.Apply fnA n dst))
    (hread : readAddr h env st.storage fnA = some callee)
    (hn : n ≤ st.storage.length)
    (happ : Value.apply ν fuel callee (st.storage.take n) h = (h₂, .thrown t))
    (hcatch : st.catchOffset = NO_CATCH) :
    loop ν (fuel + 1) f env st h = (h₂, .thrown t) := by
  have happ₂ : exec ν fuel (.callApply callee (st.storage.take n)) h = (h₂, .thrown t) := happ
  simp [loop, exec, hinstr, hread, hn, happ₂, hcatch]

/-- A body that applies the value in storage slot 0 to zero arguments
(example material). -/
def exApplyFun : IrFunction := .mk 0 1 0 (.ofList [.Apply (.Storage 0) 0 (.Storage 0)])

theorem C3_uncaught_apply_failure_witness :
    loop exThrower 2 exApplyFun 0 ⟨[Value.Fun (.Native 0)], 0, NO_CATCH, false⟩ []
      = ([], .thrown (Value.Int 9)) :=
  C3_uncaught_apply_failure exThrower 1 exApplyFun 0 ⟨[Value.Fun (.Native 0)], 0, NO_CATCH, false⟩
    [] [] (.Storage 0) 0 (.Storage 0) (Value.Fun (.Native 0)) (Value.Int 9) rfl rfl
    (by decide) rfl rfl

/-- C4: if an `Apply` instruction's callee fails while a catch target is
registered, control transfers to the catch target with the failure value
written into scratch slot 0 (the continuation state has storage
`t :: srest` and `pc = st.catchOffset`); if the instruction at the catch
target is a `Return` of slot 0 and the pending-throw mark is not set, the
invocation's result is a success equal to the previously thrown value. -/
theorem C4_caught_apply_failure (ν : NativeImpl) (fuel : Nat) (f : IrFunction) (env : Nat)
    (s₀ : Value) (srest : List Value) (pc co : Nat) (tf : Bool) (h h₂ : Heap)
    (fnA : Addr) (n : Nat) (dst : Addr) (callee t : Value)
    (hinstr : f.code.get? pc = some (.Apply fnA n dst))
    (hread : readAddr h env (s₀ :: srest) fnA = some callee)
    (hn : n ≤ (s₀ :: srest).length)
    (happ : Value.apply ν (fuel + 1) callee (List.take n (s₀ :: srest)) h = (h₂, .thrown t))
    (hcatch : co ≠ NO_CATCH) :
    loop ν (fuel + 2) f env ⟨s₀ :: srest, pc, co, tf⟩ h
        = loop ν (fuel + 1) f env ⟨t :: srest, co, co, tf⟩ h₂
      ∧ (f.code.get? co = some (.Return (.Storage 0)) → tf = false →
          loop ν (fuel + 2) f env ⟨s₀ :: srest, pc, co, tf⟩ h = (h₂, .ok t)) := by
  have happ₂ : exec ν (fuel + 1) (.callApply callee (List.take n (s₀ :: srest))) h
      = (h₂, .thrown t) := happ
  have hstep : loop ν (fuel + 2) f env ⟨s₀ :: srest, pc, co, tf⟩ h
      = loop ν (fuel + 1) f env ⟨t :: srest, co, co, tf⟩ h₂ := by
    simp only [loop]
    rw [show fuel + 2 = (fuel + 1) + 1 from rfl]
    generalize fuel + 1 = F at happ₂ ⊢
    simp [exec, hinstr, hread, hn, happ₂, hcatch]
    exact fun hcon => absurd hcon (by simp at hn; omega)
  refine ⟨hstep, fun hret hflag => ?_⟩
  rw [hstep]
  subst hflag
  simp [loop, exec, hret, readAddr]

/-- A body whose slot-0 `Apply` has its failure caught at offset 1, which
immediately returns slot 0 (example material). -/
def exCatchFun : IrFunction :=
  .mk 0 1 0 (.ofList [.Apply (.Storage 0) 0 (.Storage 0), .Return (.Storage 0)])

theorem C4_caught_apply_failure_witness :
    loop exThrower 2 exCatchFun 0 ⟨[Value.Fun (.Native 0)], 0, 1, false⟩ []
      = ([], .ok (Value.Int 9)) :=
  (C4_caught_apply_failure exThrower 0 exCatchFun 0 (Value.Fun (.Native 0)) [] 0 1 false [] []
    (.Storage 0) 0 (.Storage 0) (Value.Fun (.Native 0)) (Value.Int 9) rfl rfl (by decide) rfl
    (by decide)).2 rfl rfl

/-- C10: index-safety preconditions of `Apply`.  First: if `num_args`
exceeds the storage length, the invocation loop ends in a fatal error (the
Rust `&storage[..num_args]` slice panics) rather than yielding a result.
Second: on a caught failure with an empty storage, writing the thrown
value to `storage[0]` is a fatal error (storage size at least 1 is
required on the catch path).  Third: the storage of an invocation is
`storage_size` nil slots, so these bounds are exactly bounds against the
unit's `storage_size`. -/
theorem C10_apply_index_safety :
    (∀ (ν : NativeImpl) (fuel : Nat) (f : IrFunction) (env : Nat) (st : LoopState) (h : Heap)
        (fnA : Addr) (n : Nat) (dst : Addr) (callee : Value),
        f.code.get? st.pc = some (.Apply fnA n dst) →
        readAddr h env st.storage fnA = some callee →
        st.storage.length < n →
        loop ν (fuel + 1) f env st h = (h, .fatal))
    ∧ (∀ (ν : NativeImpl) (fuel : Nat) (f : IrFunction) (env : Nat) (pc co : Nat) (tf : Bool)
        (h h₂ : Heap) (fnA : Addr) (n : Nat) (dst : Addr) (callee t : Value),
        f.code.get? pc = some (.Apply fnA n dst) →
        readAddr h env [] fnA = some callee →
        n ≤ ([] : List Value).length →
        Value.apply ν fuel callee [] h = (h₂, .thrown t) →
        co ≠ NO_CATCH →
        loop ν (fuel + 1) f env ⟨[], pc, co, tf⟩ h = (h₂, .fatal))
    ∧ (∀ (ν : NativeImpl) (fuel : Nat) (h : Heap) (c : IrClosure) (args : List Value) (h₂ : Heap),
        writeArgs h c.env 0 (args.take c.fn.args) = some h₂ →
        IrClosure.run ν (fuel + 1) h c args
          = loop ν fuel c.fn c.env
              ⟨List.replicate c.fn.storage_size Value.nil, c.entry, NO_CATCH, false⟩ h₂) := by
  refine ⟨?_, ?_, ?_⟩
  · intro ν fuel f env st h fnA n dst callee hinstr hread hn
    simp [loop, exec, hinstr, hread, Nat.not_le.mpr hn]
  · intro ν fuel f env pc co tf h h₂ fnA n dst callee t hinstr hread hn happ hcatch
    have hn0 : n = 0 := Nat.le_zero.mp hn
    subst hn0
    have happ₂ : exec ν fuel (.callApply callee []) h = (h₂, .thrown t) := happ
    simp [loop, exec, hinstr, hread, happ₂, hcatch]
  · intro ν fuel h c args h₂ hargs
    simp [IrClosure.run, loop, exec, hargs]

/-- A body applying slot 0 to five arguments although the storage has a
single slot (example material). -/
def exOverFun : IrFunction := .mk 0 1 0 (.ofList [.Apply (.Storage 0) 5 (.Storage 0)])

/-- A body applying an environment-resident callee to zero arguments with
an empty storage and a registered catch (example material). -/
def exEmptyFun : IrFunction := .mk 0 0 0 (.ofList [.Apply (.Environment ⟨0, 0⟩) 0 (.Storage 0)])

theorem C10_apply_index_safety_witness :
    loop exThrower 1 exOverFun 0 ⟨[Value.Fun (.Native 0)], 0, NO_CATCH, false⟩ []
        = ([], .fatal)
      ∧ loop exThrower 2 exEmptyFun 0 ⟨[], 0, 3, false⟩ [⟨[Value.Fun (.Native 0)], none⟩]
        = ([⟨[Value.Fun (.Native 0)], none⟩], .fatal) :=
  ⟨C10_apply_index_safety.1 exThrower 0 exOverFun 0 ⟨[Value.Fun (.Native 0)], 0, NO_CATCH, false⟩
      [] (.Storage 0) 5 (.Storage 0) (Value.Fun (.Native 0)) rfl rfl (by decide),
    C10_apply_index_safety.2.1 exThrower 1 exEmptyFun 0 0 3 false
      [⟨[Value.Fun (.Native 0)], none⟩] [⟨[Value.Fun (.Native 0)], none⟩] (.Environment ⟨0, 0⟩) 0
      (.Storage 0) (Value.Fun (.Native 0)) (Value.Int 9) rfl rfl (by decide) rfl (by decide)⟩

/-! The argument-moving prelude: `writeArgs` rewrites slots `i ..
i + as.length` of the addressed frame in place, preserves the heap's
length and every other frame, and preserves the frame's parent link. -/

theorem writeArgs_spec :
    ∀ (as : List Value) (i : Nat) (h : Heap) (e : Nat) (f : Environment),
      h[e]? = some f → i + as.length ≤ f.bindings.length →
      ∃ (h₂ : Heap) (f₂ : Environment),
        writeArgs h e i as = some h₂ ∧
        h₂.length = h.length ∧
        h₂[e]? = some f₂ ∧
        (∀ j : Nat, j ≠ e → h₂[j]? = h[j]?) ∧
        f₂.parent = f.parent ∧
        f₂.bindings.length = f.bindings.length ∧
        ∀ j : Nat, f₂.bindings[j]? =
          if i ≤ j ∧ j < i + as.length then as[j - i]? else f.bindings[j]? := by
  intro as
  induction as with
  | nil =>
    intro i h e f hf hlen
    refine ⟨h, f, rfl, rfl, hf, fun j _ => rfl, rfl, rfl, fun j => ?_⟩
    have hno : ¬(i ≤ j ∧ j < i + ([] : List Value).length) := by simp
    rw [if_neg hno]
  | cons a rest ih =>
    intro i h e f hf hlen
    have he : e < h.length := (List.getElem?_eq_some.mp hf).1
    have hi : i < f.bindings.length := by simp at hlen; omega
    have hset : Environment.set h e ⟨0, i⟩ a
        = some (h.set e ⟨f.bindings.set i a, f.parent⟩) := by
      simp [Environment.set, Environment.setUp, hf, hi]
    have hf₁e : (h.set e ⟨f.bindings.set i a, f.parent⟩)[e]?
        = some ⟨f.bindings.set i a, f.parent⟩ := List.getElem?_set_eq_of_lt _ he
    have hlen₁ : (i + 1) + rest.length
        ≤ (Environment.mk (f.bindings.set i a) f.parent).bindings.length := by
      simp at hlen ⊢; omega
    obtain ⟨h₂, f₂, hw, hl, hfe₂, hother, hpar, hblen, hslots⟩ :=
      ih (i + 1) (h.set e ⟨f.bindings.set i a, f.parent⟩) e ⟨f.bindings.set i a, f.parent⟩
        hf₁e hlen₁
    refine ⟨h₂, f₂, ?_, ?_, hfe₂, ?_, hpar, ?_, ?_⟩
    · simp only [writeArgs, hset]
      exact hw
    · rw [hl]; simp
    · intro j hj
      rw [hother j hj, List.getElem?_set_ne (fun hej => hj hej.symm)]
    · rw [hblen]; simp
    · intro j
      rw [hslots j]
      by_cases hcase : i + 1 ≤ j ∧ j < i + 1 + rest.length
      · rw [if_pos hcase]
        have hcond : i ≤ j ∧ j < i + (a :: rest).length := by simp; omega
        rw [if_pos hcond]
        have hsub : j - i = (j - (i + 1)) + 1 := by omega
        rw [hsub, List.getElem?_cons_succ]
      · rw [if_neg hcase]
        by_cases hji : j = i
        · subst hji
          have hcond : j ≤ j ∧ j < j + (a :: rest).length := by simp
          rw [if_pos hcond]
          simp only [Nat.sub_self, List.getElem?_cons_zero]
          exact List.getElem?_set_eq_of_lt _ hi
        · have hcond : ¬(i ≤ j ∧ j < i + (a :: rest).length) := by simp at hcase ⊢; omega
          rw [if_neg hcond]
          exact List.getElem?_set_ne (fun hej => hji hej.symm)

/-- C8: invoking a closure binds at most `max_args` arguments.  First: the
result of `IrClosure::run` only depends on the first `args` call arguments
(`args.take c.fn.args`), so every additional caller argument is ignored.
Second: the prelude writes exactly the first `min(|args|, max_args)`
arguments into the closure frame's slots `0..k` in order and leaves every
other slot unchanged, after which the instruction loop starts. -/
theorem C8_at_most_max_args :
    (∀ (ν : NativeImpl) (fuel : Nat) (h : Heap) (c : IrClosure) (args : List Value),
        IrClosure.run ν fuel h c args = IrClosure.run ν fuel h c (args.take c.fn.args))
    ∧ (∀ (ν : NativeImpl) (fuel : Nat) (h : Heap) (c : IrClosure) (args : List Value)
        (fr : Environment),
        h[c.env]? = some fr → c.fn.args ≤ fr.bindings.length →
        ∃ (h₂ : Heap) (f₂ : Environment),
          writeArgs h c.env 0 (args.take c.fn.args) = some h₂ ∧
          h₂[c.env]? = some f₂ ∧
          (∀ j : Nat, j < min args.length c.fn.args → f₂.bindings[j]? = args[j]?) ∧
          (∀ j : Nat, min args.length c.fn.args ≤ j → f₂.bindings[j]? = fr.bindings[j]?) ∧
          IrClosure.run ν (fuel + 1) h c args
            = loop ν fuel c.fn c.env
                ⟨List.replicate c.fn.storage_size Value.nil, c.entry, NO_CATCH, false⟩ h₂) := by
  constructor
  · intro ν fuel h c args
    cases fuel with
    | zero => rfl
    | succ fuel => simp [IrClosure.run, exec, List.take_take]
  · intro ν fuel h c args fr hf hargs
    have hlen : 0 + (args.take c.fn.args).length ≤ fr.bindings.length := by
      simp [List.length_take]
      omega
    obtain ⟨h₂, f₂, hw, hl, hfe₂, hother, hpar, hblen, hslots⟩ :=
      writeArgs_spec (args.take c.fn.args) 0 h c.env fr hf hlen
    refine ⟨h₂, f₂, hw, hfe₂, fun j hj => ?_, fun j hj => ?_, ?_⟩
    · have hcond : 0 ≤ j ∧ j < 0 + (args.take c.fn.args).length := by
        simp [List.length_take]; omega
      rw [hslots j, if_pos hcond, Nat.sub_zero, List.getElem?_take]
      rw [if_pos (by omega : j < c.fn.args)]
    · have hcond : ¬(0 ≤ j ∧ j < 0 + (args.take c.fn.args).length) := by
        simp [List.length_take]; omega
      rw [hslots j, if_neg hcond]
    · simp [IrClosure.run, loop, exec, hw]

/-- A two-argument body over a three-slot frame (example material). -/
def exTwoArgFun : IrFunction := .mk 2 1 3 (.ofList [.Return (.Storage 0)])

/-- A heap with an empty top frame and a three-slot closure frame
(example material). -/
def exHeap3 : Heap := [⟨[], none⟩, ⟨[Value.Nil, Value.Nil, Value.Nil], some 0⟩]

theorem C8_at_most_max_args_witness :
    IrClosure.run exThrower 5 exHeap3 ⟨1, exTwoArgFun, 0⟩ [Value.Int 1, Value.Int 2, Value.Int 3]
        = IrClosure.run exThrower 5 exHeap3 ⟨1, exTwoArgFun, 0⟩
            (List.take 2 [Value.Int 1, Value.Int 2, Value.Int 3])
      ∧ ∃ (h₂ : Heap) (f₂ : Environment),
          writeArgs exHeap3 1 0
              (List.take 2 [Value.Int 1, Value.Int 2, Value.Int 3]) = some h₂ ∧
          h₂[(1 : Nat)]? = some f₂ ∧
          (∀ j : Nat, j < min 3 2 → f₂.bindings[j]? = [Value.Int 1, Value.Int 2, Value.Int 3][j]?) ∧
          (∀ j : Nat, min 3 2 ≤ j →
            f₂.bindings[j]? = [Value.Nil, Value.Nil, Value.Nil][j]?) ∧
          IrClosure.run exThrower 5 exHeap3 ⟨1, exTwoArgFun, 0⟩
              [Value.Int 1, Value.Int 2, Value.Int 3]
            = loop exThrower 4 exTwoArgFun 1
                ⟨List.replicate 1 Value.nil, 0, NO_CATCH, false⟩ h₂ :=
  ⟨C8_at_most_max_args.1 exThrower 5 exHeap3 ⟨1, exTwoArgFun, 0⟩
      [Value.Int 1, Value.Int 2, Value.Int 3],
    C8_at_most_max_args.2 exThrower 4 exHeap3 ⟨1, exTwoArgFun, 0⟩
      [Value.Int 1, Value.Int 2, Value.Int 3] ⟨[Value.Nil, Value.Nil, Value.Nil], some 0⟩
      rfl (by decide)⟩

/-- A one-argument identity-style body over a one-slot frame (example
material). -/
def exOneArgFun : IrFunction := .mk 1 1 1 (.ofList [.Return (.Storage 0)])

/-- C2 counterexample: `Environment::child` is NOT invoked at invocation
entry, and an invocation does not write its arguments into an invocation-
own frame.  Concretely: running the closure `⟨1, exOneArgFun, 0⟩` twice
writes the respective argument both times into frame 1 - the frame
allocated when the function literal was materialized - and the heap keeps
its two frames throughout (no `child` allocation happens at entry, which
would grow the heap). -/
theorem C2_counterexample :
    IrClosure.run exThrower 3 [⟨[], none⟩, ⟨[Value.Nil], some 0⟩] ⟨1, exOneArgFun, 0⟩
        [Value.Int 7]
      = ([⟨[], none⟩, ⟨[Value.Int 7], some 0⟩], .ok Value.Nil)
    ∧ IrClosure.run exThrower 3 [⟨[], none⟩, ⟨[Value.Int 7], some 0⟩] ⟨1, exOneArgFun, 0⟩
        [Value.Int 8]
      = ([⟨[], none⟩, ⟨[Value.Int 8], some 0⟩], .ok Value.Nil)
    ∧ ([⟨[], none⟩, ⟨[Value.Int 7], some 0⟩] : Heap).length
      = ([⟨[], none⟩, ⟨[Value.Nil], some 0⟩] : Heap).length :=
  ⟨rfl, rfl, rfl⟩

/-- C2 (amended): `Environment::child` allocates a new frame of the given
size with every slot initialized to the nothing value and linked to the
given parent, and it is invoked once per function-literal evaluation
(`IrLiteral::to_value` on a function descriptor); invocation entry does
NOT invoke `child`: the argument-moving prelude allocates no frame and
writes the call arguments into slots `0..k` of the closure's captured
environment frame, which is shared across all invocations of that
closure. -/
theorem C2_child_allocation_sites :
    (∀ (h : Heap) (parent size : Nat),
        Environment.child h parent size
          = (h ++ [⟨List.replicate size Value.nil, some parent⟩], h.length))
    ∧ (∀ (f : IrFunction) (entry env : Nat) (h : Heap),
        IrLiteral.toValue (.Fun f entry) env h
          = ((Environment.child h env f.env_size).1,
             .Fun (.Pan ⟨(Environment.child h env f.env_size).2, f, entry⟩)))
    ∧ (∀ (ν : NativeImpl) (fuel : Nat) (h : Heap) (c : IrClosure) (args : List Value)
        (fr : Environment),
        h[c.env]? = some fr → c.fn.args ≤ fr.bindings.length →
        ∃ (h₂ : Heap) (f₂ : Environment),
          writeArgs h c.env 0 (args.take c.fn.args) = some h₂ ∧
          h₂.length = h.length ∧
          h₂[c.env]? = some f₂ ∧
          (∀ j : Nat, j ≠ c.env → h₂[j]? = h[j]?) ∧
          (∀ j : Nat, j < min args.length c.fn.args → f₂.bindings[j]? = args[j]?) ∧
          IrClosure.run ν (fuel + 1) h c args
            = loop ν fuel c.fn c.env
                ⟨List.replicate c.fn.storage_size Value.nil, c.entry, NO_CATCH, false⟩ h₂) := by
  refine ⟨fun h parent size => rfl, fun f entry env h => rfl, ?_⟩
  intro ν fuel h c args fr hf hargs
  have hlen : 0 + (args.take c.fn.args).length ≤ fr.bindings.length := by
    simp [List.length_take]
    omega
  obtain ⟨h₂, f₂, hw, hl, hfe₂, hother, hpar, hblen, hslots⟩ :=
    writeArgs_spec (args.take c.fn.args) 0 h c.env fr hf hlen
  refine ⟨h₂, f₂, hw, hl, hfe₂, hother, fun j hj => ?_, ?_⟩
  · have hcond : 0 ≤ j ∧ j < 0 + (args.take c.fn.args).length := by
      simp [List.length_take]; omega
    rw [hslots j, if_pos hcond, Nat.sub_zero, List.getElem?_take]
    rw [if_pos (by omega : j < c.fn.args)]
  · simp [IrClosure.run, loop, exec, hw]

theorem C2_child_allocation_sites_witness :
    Environment.child [⟨[], none⟩] 0 2
        = ([⟨[], none⟩, ⟨[Value.Nil, Value.Nil], some 0⟩], 1)
      ∧ IrLiteral.toValue (.Fun exOneArgFun 0) 0 [⟨[], none⟩]
        = ([⟨[], none⟩, ⟨[Value.Nil], some 0⟩], .Fun (.Pan ⟨1, exOneArgFun, 0⟩))
      ∧ ∃ (h₂ : Heap) (f₂ : Environment),
          writeArgs [⟨[], none⟩, ⟨[Value.Nil], some 0⟩] 1 0
              (List.take 1 [Value.Int 7]) = some h₂ ∧
          h₂.length = 2 ∧
          h₂[(1 : Nat)]? = some f₂ ∧
          (∀ j : Nat, j ≠ 1 →
            h₂[j]? = ([⟨[], none⟩, ⟨[Value.Nil], some 0⟩] : Heap)[j]?) ∧
          (∀ j : Nat, j < min 1 1 → f₂.bindings[j]? = [Value.Int 7][j]?) ∧
          IrClosure.run exThrower 3 [⟨[], none⟩, ⟨[Value.Nil], some 0⟩] ⟨1, exOneArgFun, 0⟩
              [Value.Int 7]
            = loop exThrower 2 exOneArgFun 1
                ⟨List.replicate 1 Value.nil, 0, NO_CATCH, false⟩ h₂ :=
  ⟨(C2_child_allocation_sites.1 [⟨[], none⟩] 0 2).trans rfl,
    C2_child_allocation_sites.2.1 exOneArgFun 0 0 [⟨[], none⟩],
    C2_child_allocation_sites.2.2 exThrower 2 [⟨[], none⟩, ⟨[Value.Nil], some 0⟩]
      ⟨1, exOneArgFun, 0⟩ [Value.Int 7] ⟨[Value.Nil], some 0⟩ rfl (by decide)⟩

/-! Association-list laws for `mapInsert`/`setInsert`: inserting a
sequence of entries keeps one entry per key, the later entry winning. -/

theorem mapLookup_mapInsert (m : ValuePairList) (k v k' : Value) :
    mapLookup (mapInsert m k v) k' = if k = k' then some v else mapLookup m k' := by
  induction m using ValuePairList.recPairs with
  | nil => simp [mapInsert, mapLookup]
  | cons k₀ v₀ rest ih =>
    simp only [mapInsert]
    by_cases h₀ : k₀ = k
    · subst h₀
      simp only [if_pos rfl, mapLookup]
      by_cases h₁ : k₀ = k'
      · subst h₁; simp
      · simp [h₁]
    · rw [if_neg h₀]
      simp only [mapLookup]
      by_cases h₁ : k₀ = k'
      · subst h₁
        rw [if_pos rfl, if_neg (fun he => h₀ he.symm), if_pos rfl]
      · rw [if_neg h₁, ih, if_neg h₁]

theorem mapLookup_insertAll (ps : ValuePairList) :
    ∀ (m : ValuePairList) (k : Value),
      mapLookup (insertAll m ps) k =
        match lastWins ps k with
        | some v => some v
        | none => mapLookup m k := by
  induction ps using ValuePairList.recPairs with
  | nil => intro m k; simp [insertAll, lastWins]
  | cons kp vp rest ih =>
    intro m k
    simp only [insertAll, lastWins]
    rw [ih]
    cases hl : lastWins rest k with
    | some v => simp
    | none =>
      simp only
      rw [mapLookup_mapInsert]
      by_cases hk : kp = k
      · simp [hk]
      · simp [hk]

theorem keys_mapInsert_mem (m : ValuePairList) (k v a : Value) :
    a ∈ (mapInsert m k v).keys → a ∈ m.keys ∨ a = k := by
  induction m using ValuePairList.recPairs with
  | nil =>
    intro ha
    simp [mapInsert, ValuePairList.keys] at ha
    exact Or.inr ha
  | cons k₀ v₀ rest ih =>
    intro ha
    simp only [mapInsert] at ha
    by_cases h₀ : k₀ = k
    · rw [if_pos h₀] at ha
      simp only [ValuePairList.keys, List.mem_cons] at ha ⊢
      exact Or.inl ha
    · rw [if_neg h₀] at ha
      simp only [ValuePairList.keys, List.mem_cons] at ha ⊢
      rcases ha with ha | ha
      · exact Or.inl (Or.inl ha)
      · rcases ih ha with hmem | hmem
        · exact Or.inl (Or.inr hmem)
        · exact Or.inr hmem

theorem keys_nodup_mapInsert (m : ValuePairList) (k v : Value) (hm : m.keys.Nodup) :
    (mapInsert m k v).keys.Nodup := by
  induction m using ValuePairList.recPairs with
  | nil => simp [mapInsert, ValuePairList.keys]
  | cons k₀ v₀ rest ih =>
    simp only [mapInsert]
    by_cases h₀ : k₀ = k
    · rw [if_pos h₀]
      simpa [ValuePairList.keys] using hm
    · rw [if_neg h₀]
      simp only [ValuePairList.keys, List.nodup_cons] at hm ⊢
      obtain ⟨hnot, hrest⟩ := hm
      refine ⟨fun hmem => ?_, ih hrest⟩
      rcases keys_mapInsert_mem rest k v k₀ hmem with hin | heq
      · exact hnot hin
      · exact h₀ heq

theorem keys_nodup_insertAll (ps : ValuePairList) :
    ∀ m : ValuePairList, m.keys.Nodup → (insertAll m ps).keys.Nodup := by
  induction ps using ValuePairList.recPairs with
  | nil => intro m hm; exact hm
  | cons k v rest ih => intro m hm; exact ih _ (keys_nodup_mapInsert m k v hm)

theorem mem_setInsert (s : ValueList) (v a : Value) :
    a ∈ (setInsert s v).toList ↔ a ∈ s.toList ∨ a = v := by
  induction s using ValueList.recList with
  | nil => simp [setInsert, ValueList.toList]
  | cons v₀ rest ih =>
    simp only [setInsert]
    by_cases h₀ : v₀ = v
    · subst h₀
      simp only [ValueList.toList, List.mem_cons]
      constructor
      · exact fun hmem => Or.inl hmem
      · rintro (hmem | rfl)
        · exact hmem
        · exact Or.inl rfl
    · rw [if_neg h₀]
      simp only [ValueList.toList, List.mem_cons, ih]
      tauto

theorem nodup_setInsert (s : ValueList) (v : Value) (hs : s.toList.Nodup) :
    (setInsert s v).toList.Nodup := by
  induction s using ValueList.recList with
  | nil => simp [setInsert, ValueList.toList]
  | cons v₀ rest ih =>
    simp only [setInsert]
    by_cases h₀ : v₀ = v
    · rw [if_pos h₀]; exact hs
    · rw [if_neg h₀]
      simp only [ValueList.toList, List.nodup_cons] at hs ⊢
      obtain ⟨hnot, hrest⟩ := hs
      refine ⟨fun hmem => ?_, ih hrest⟩
      rcases (mem_setInsert rest v v₀).mp hmem with hin | heq
      · exact hnot hin
      · exact h₀ heq

theorem nodup_setInsertAll (es : ValueList) :
    ∀ s : ValueList, s.toList.Nodup → (setInsertAll s es).toList.Nodup := by
  induction es using ValueList.recList with
  | nil => intro s hs; exact hs
  | cons v rest ih => intro s hs; exact ih _ (nodup_setInsert s v hs)

theorem mem_setInsertAll (es : ValueList) :
    ∀ (s : ValueList) (a : Value),
      a ∈ (setInsertAll s es).toList ↔ a ∈ s.toList ∨ a ∈ es.toList := by
  induction es using ValueList.recList with
  | nil => intro s a; simp [setInsertAll, ValueList.toList]
  | cons v rest ih =>
    intro s a
    simp only [setInsertAll, ValueList.toList, List.mem_cons]
    rw [ih, mem_setInsert]
    tauto

/-! Materializing a set or map descriptor is exactly the order-preserving
materialization of its entries followed by the insertion fold. -/

theorem toValueMap_eq_insertAll (xs : IrLiteralPairList) :
    ∀ (env : Nat) (h : Heap) (acc : ValuePairList),
      toValueMap xs env h acc
        = ((toValuePairs xs env h).1, insertAll acc (toValuePairs xs env h).2) := by
  induction xs using IrLiteralPairList.recLitPairs with
  | nil => intro env h acc; simp [toValueMap, toValuePairs, insertAll]
  | cons k v rest ih =>
    intro env h acc
    simp only [toValueMap, toValuePairs]
    rcases hk : k.toValue env h with ⟨h₂, kv⟩
    rcases hv : v.toValue env h₂ with ⟨h₃, vv⟩
    rcases hr : toValuePairs rest env h₃ with ⟨h₄, ps⟩
    rw [ih env h₃ (mapInsert acc kv vv), hr]
    simp [insertAll]

theorem toValueSet_eq_setInsertAll (xs : IrLiteralList) :
    ∀ (env : Nat) (h : Heap) (acc : ValueList),
      toValueSet xs env h acc
        = ((toValueList xs env h).1, setInsertAll acc (toValueList xs env h).2) := by
  induction xs using IrLiteralList.recLits with
  | nil => intro env h acc; simp [toValueSet, toValueList, setInsertAll]
  | cons x rest ih =>
    intro env h acc
    simp only [toValueSet, toValueList]
    rcases hx : x.toValue env h with ⟨h₂, v⟩
    rcases hr : toValueList rest env h₂ with ⟨h₃, vs⟩
    rw [ih env h₂ (setInsert acc v), hr]
    simp [setInsertAll]

/-- C7: materializing a set or map literal descriptor inserts the
materialized entries in descriptor order; for a map the resulting
association list holds exactly one entry per key (its key list has no
duplicates) and looking up any key returns the value of the LAST
descriptor entry whose key materialized to it (`lastWins`); for a set the
result holds each materialized element exactly once. -/
theorem C7_dedup_last_write_wins :
    (∀ (xs : IrLiteralPairList) (env : Nat) (h : Heap),
        IrLiteral.toValue (.Map xs) env h
          = ((toValuePairs xs env h).1, Value.Map (insertAll .nil (toValuePairs xs env h).2)))
    ∧ (∀ (ps : ValuePairList) (k : Value),
        mapLookup (insertAll .nil ps) k = lastWins ps k)
    ∧ (∀ ps : ValuePairList, (insertAll .nil ps).keys.Nodup)
    ∧ (∀ (xs : IrLiteralList) (env : Nat) (h : Heap),
        IrLiteral.toValue (.Set xs) env h
          = ((toValueList xs env h).1, Value.Set (setInsertAll .nil (toValueList xs env h).2)))
    ∧ (∀ es : ValueList,
        (setInsertAll .nil es).toList.Nodup
          ∧ ∀ a : Value, a ∈ (setInsertAll .nil es).toList ↔ a ∈ es.toList) := by
  refine ⟨?_, ?_, ?_, ?_, ?_⟩
  · intro xs env h
    simp only [IrLiteral.toValue]
    rw [toValueMap_eq_insertAll]
  · intro ps k
    rw [mapLookup_insertAll]
    cases lastWins ps k <;> simp [mapLookup]
  · intro ps
    exact keys_nodup_insertAll ps .nil (by simp [ValuePairList.keys])
  · intro xs env h
    simp only [IrLiteral.toValue]
    rw [toValueSet_eq_setInsertAll]
  · intro es
    refine ⟨nodup_setInsertAll es .nil (by simp [ValueList.toList]), fun a => ?_⟩
    rw [mem_setInsertAll]
    simp [ValueList.toList]

/-! Single-activation executions: whenever the re-entry-free interpreter
`loopFlat` succeeds, the real interpreter takes exactly the same steps -
none of which enters a nested activation. -/

theorem flatApplyTick_imp_exec (ν : NativeImpl) (fuel : Nat) (callee : Value) (args : List Value)
    (h h₂ : Heap) (r : RunResult) (hres : flatApplyTick ν fuel callee args h = (h₂, r))
    (hr : r ≠ .fatal) :
    exec ν fuel (.callApply callee args) h = (h₂, r) := by
  cases fuel with
  | zero =>
    simp only [flatApplyTick, Prod.mk.injEq] at hres
    obtain ⟨rfl, rfl⟩ := hres
    rfl
  | succ fuel =>
    cases callee with
    | Fun f =>
      cases f with
      | Pan c =>
        simp only [flatApplyTick, Prod.mk.injEq] at hres
        exact absurd hres.2.symm hr
      | Native id =>
        simp only [flatApplyTick] at hres
        simp only [exec]
        exact hres
    | Nil =>
      simp only [flatApplyTick, Prod.mk.injEq] at hres
      exact absurd hres.2.symm hr
    | Bool b =>
      simp only [flatApplyTick, Prod.mk.injEq] at hres
      exact absurd hres.2.symm hr
    | Int n =>
      simp only [flatApplyTick, Prod.mk.injEq] at hres
      exact absurd hres.2.symm hr
    | Float bits =>
      simp only [flatApplyTick, Prod.mk.injEq] at hres
      exact absurd hres.2.symm hr
    | Char c =>
      simp only [flatApplyTick, Prod.mk.injEq] at hres
      exact absurd hres.2.symm hr
    | String s =>
      simp only [flatApplyTick, Prod.mk.injEq] at hres
      exact absurd hres.2.symm hr
    | Bytes bs =>
      simp only [flatApplyTick, Prod.mk.injEq] at hres
      exact absurd hres.2.symm hr
    | Array xs =>
      simp only [flatApplyTick, Prod.mk.injEq] at hres
      exact absurd hres.2.symm hr
    | Set xs =>
      simp only [flatApplyTick, Prod.mk.injEq] at hres
      exact absurd hres.2.symm hr
    | Map es =>
      simp only [flatApplyTick, Prod.mk.injEq] at hres
      exact absurd hres.2.symm hr

theorem loopFlat_imp_loop (ν : NativeImpl) :
    ∀ (fuel : Nat) (f : IrFunction) (env : Nat) (st : LoopState) (h h₂ : Heap) (v : Value),
      loopFlat ν fuel f env st h = (h₂, .ok v) →
      loop ν fuel f env st h = (h₂, .ok v) := by
  intro fuel
  induction fuel with
  | zero =>
    intro f env st h h₂ v hrun
    simp [loopFlat, Prod.mk.injEq] at hrun
  | succ fuel ih =>
    intro f env st h h₂ v hrun
    simp only [loopFlat] at hrun
    simp only [loop, exec]
    cases hc : f.code.get? st.pc with
    | none => simp [hc] at hrun
    | some instr =>
      simp only [hc] at hrun ⊢
      cases instr with
      | Write src dst =>
        cases hr : readAddr h env st.storage src with
        | none => simp [hr] at hrun
        | some w =>
          simp only [hr] at hrun ⊢
          cases hw : writeAddr h env st.storage dst w with
          | none => simp [hw] at hrun
          | some pr =>
            obtain ⟨h₃, stor⟩ := pr
            simp only [hw] at hrun ⊢
            exact ih f env _ h₃ h₂ v hrun
      | Apply fnA numArgs dst =>
        cases hr : readAddr h env st.storage fnA with
        | none => simp [hr] at hrun
        | some callee =>
          simp only [hr] at hrun ⊢
          by_cases hn : numArgs ≤ st.storage.length
          · simp only [if_pos hn] at hrun ⊢
            rcases hflat : flatApplyTick ν fuel callee (st.storage.take numArgs) h with ⟨h₃, res⟩
            cases res with
            | ok ret =>
              have hex := flatApplyTick_imp_exec ν fuel callee (st.storage.take numArgs) h h₃
                (.ok ret) hflat (by simp)
              simp only [hflat] at hrun
              simp only [hex]
              cases hw : writeAddr h₃ env st.storage dst ret with
              | none => simp [hw] at hrun
              | some pr =>
                obtain ⟨h₄, stor⟩ := pr
                simp only [hw] at hrun ⊢
                exact ih f env _ h₄ h₂ v hrun
            | thrown t =>
              have hex := flatApplyTick_imp_exec ν fuel callee (st.storage.take numArgs) h h₃
                (.thrown t) hflat (by simp)
              simp only [hflat] at hrun
              simp only [hex]
              by_cases hcat : st.catchOffset = NO_CATCH
              · simp [if_pos hcat] at hrun
              · simp only [if_neg hcat] at hrun ⊢
                cases hst : st.storage with
                | nil => simp [hst] at hrun
                | cons s₀ srest =>
                  simp only [hst] at hrun ⊢
                  exact ih f env _ h₃ h₂ v hrun
            | fatal => simp [hflat] at hrun
            | outOfFuel => simp [hflat] at hrun
          · simp [if_neg hn] at hrun
      | Jump target =>
        exact ih f env _ h h₂ v hrun
      | CondJump a target =>
        cases hr : readAddr h env st.storage a with
        | none => simp [hr] at hrun
        | some w =>
          simp only [hr] at hrun ⊢
          exact ih f env _ h h₂ v hrun
      | Literal lit dst =>
        rcases hlit : lit.toValue env h with ⟨h₃, w⟩
        simp only [hlit] at hrun ⊢
        cases hw : writeAddr h₃ env st.storage dst w with
        | none => simp [hw] at hrun
        | some pr =>
          obtain ⟨h₄, stor⟩ := pr
          simp only [hw] at hrun ⊢
          exact ih f env _ h₄ h₂ v hrun
      | ThrowFlag =>
        exact ih f env _ h h₂ v hrun
      | Catch offset =>
        exact ih f env _ h h₂ v hrun
      | Return a =>
        cases hr : readAddr h env st.storage a with
        | none => simp [hr] at hrun
        | some w =>
          simp only [hr] at hrun ⊢
          exact hrun
      | Throw a =>
        cases hr : readAddr h env st.storage a with
        | none => simp [hr] at hrun
        | some w => simp [hr] at hrun

/-! The mutually tail-recursive countdown of the spec: two members of one
rec group share the instruction unit `cdFun`; each member applies the
native predecessor function, and if the counter is not yet exhausted
performs a tail call to the OTHER member - compiled as a `Write` of the
new argument into slot 0 of the shared frame followed by a `Jump` to the
other member's entry offset (0 and 6). -/

/-- Native 0 is the predecessor: `pred(Int k)` is `Nil` when `k ≤ 0`
(counter exhausted) and `Int (k - 1)` otherwise. -/
def cdNu : NativeImpl := fun id args =>
  match id, args with
  | 0, [Value.Int k] => .ok (if k ≤ 0 then Value.Nil else Value.Int (k - 1))
  | _, _ => .error Value.Nil

/-- The shared code body: member A at entry 0, member B at entry 6. -/
def cdCode : List Instruction := [
  .Write (.Environment ⟨0, 0⟩) (.Storage 0),
  .Apply (.Environment ⟨1, 0⟩) 1 (.Storage 0),
  .CondJump (.Storage 0) 4,
  .Return (.Storage 0),
  .Write (.Storage 0) (.Environment ⟨0, 0⟩),
  .Jump 6,
  .Write (.Environment ⟨0, 0⟩) (.Storage 0),
  .Apply (.Environment ⟨1, 0⟩) 1 (.Storage 0),
  .CondJump (.Storage 0) 10,
  .Return (.Storage 0),
  .Write (.Storage 0) (.Environment ⟨0, 0⟩),
  .Jump 0 ]

/-- The countdown instruction unit: one argument, one scratch slot, a
one-slot frame. -/
def cdFun : IrFunction := .mk 1 1 1 (.ofList cdCode)

/-- The countdown heap: builtins frame (the native predecessor) and the
rec group's shared argument frame holding the counter. -/
def cdHeap (n : Nat) : Heap := [⟨[Value.Fun (.Native 0)], none⟩, ⟨[Value.Int n], some 0⟩]

theorem cd_roundA (fuel n : Nat) (x : Value) :
    loopFlat cdNu (fuel + 5) cdFun 1 ⟨[x], 0, NO_CATCH, false⟩ (cdHeap (n + 1))
      = loopFlat cdNu fuel cdFun 1 ⟨[Value.Int (n : Int)], 6, NO_CATCH, false⟩ (cdHeap n) := by
  have hle : ¬(((n : Int) + 1) ≤ 0) := by omega
  have hsub : ((n : Int) + 1) - 1 = (n : Int) := by ring
  simp [loopFlat, flatApplyTick, cdNu, cdFun, cdCode, cdHeap, InstructionList.ofList,
    InstructionList.get?, readAddr, writeAddr, Environment.get, Environment.getUp,
    Environment.set, Environment.setUp, truthy, Nat.cast_add, Nat.cast_one, hle, hsub]

theorem cd_roundB (fuel n : Nat) (x : Value) :
    loopFlat cdNu (fuel + 5) cdFun 1 ⟨[x], 6, NO_CATCH, false⟩ (cdHeap (n + 1))
      = loopFlat cdNu fuel cdFun 1 ⟨[Value.Int (n : Int)], 0, NO_CATCH, false⟩ (cdHeap n) := by
  have hle : ¬(((n : Int) + 1) ≤ 0) := by omega
  have hsub : ((n : Int) + 1) - 1 = (n : Int) := by ring
  simp [loopFlat, flatApplyTick, cdNu, cdFun, cdCode, cdHeap, InstructionList.ofList,
    InstructionList.get?, readAddr, writeAddr, Environment.get, Environment.getUp,
    Environment.set, Environment.setUp, truthy, Nat.cast_add, Nat.cast_one, hle, hsub]

theorem cd_base0 (fuel : Nat) (x : Value) :
    loopFlat cdNu (fuel + 4) cdFun 1 ⟨[x], 0, NO_CATCH, false⟩ (cdHeap 0)
      = (cdHeap 0, .ok Value.Nil) := by
  simp [loopFlat, flatApplyTick, cdNu, cdFun, cdCode, cdHeap, InstructionList.ofList,
    InstructionList.get?, readAddr, writeAddr, Environment.get, Environment.getUp,
    Environment.set, Environment.setUp, truthy]

theorem cd_base6 (fuel : Nat) (x : Value) :
    loopFlat cdNu (fuel + 4) cdFun 1 ⟨[x], 6, NO_CATCH, false⟩ (cdHeap 0)
      = (cdHeap 0, .ok Value.Nil) := by
  simp [loopFlat, flatApplyTick, cdNu, cdFun, cdCode, cdHeap, InstructionList.ofList,
    InstructionList.get?, readAddr, writeAddr, Environment.get, Environment.getUp,
    Environment.set, Environment.setUp, truthy]

theorem cd_total :
    ∀ (n fuel : Nat) (x : Value),
      loopFlat cdNu (5 * n + (fuel + 4)) cdFun 1 ⟨[x], 0, NO_CATCH, false⟩ (cdHeap n)
        = (cdHeap 0, .ok Value.Nil)
      ∧ loopFlat cdNu (5 * n + (fuel + 4)) cdFun 1 ⟨[x], 6, NO_CATCH, false⟩ (cdHeap n)
        = (cdHeap 0, .ok Value.Nil) := by
  intro n
  induction n with
  | zero =>
    intro fuel x
    rw [show 5 * 0 + (fuel + 4) = fuel + 4 by ring]
    exact ⟨cd_base0 fuel x, cd_base6 fuel x⟩
  | succ n ih =>
    intro fuel x
    rw [show 5 * (n + 1) + (fuel + 4) = (5 * n + (fuel + 4)) + 5 by ring]
    constructor
    · rw [cd_roundA (5 * n + (fuel + 4)) n x]
      exact (ih fuel (Value.Int (n : Int))).2
    · rw [cd_roundB (5 * n + (fuel + 4)) n x]
      exact (ih fuel (Value.Int (n : Int))).1

/-- C9: an intra-group tail call - argument writes into the shared frame
followed by an unconditional `Jump` - continues in the same invocation-
loop activation: the `Jump` step keeps the same unit, environment and
storage and only moves the pc, and the two-member countdown (from any
`n`, e.g. 200000) completes under `loopFlat`, the interpreter that has no
capability to nest a second activation (the model counterpart of host
call-stack frames), with fuel linear in `n`; the real interpreter takes
exactly those same steps and returns the same result. -/
theorem C9_tail_calls_no_stack_growth :
    (∀ (ν : NativeImpl) (fuel : Nat) (f : IrFunction) (env : Nat) (st : LoopState) (h : Heap)
        (t : Nat),
        f.code.get? st.pc = some (.Jump t) →
        loop ν (fuel + 1) f env st h
          = loop ν fuel f env ⟨st.storage, t, st.catchOffset, st.throwFlag⟩ h)
    ∧ (∀ (n : Nat) (x : Value),
        loopFlat cdNu (5 * n + 4) cdFun 1 ⟨[x], 0, NO_CATCH, false⟩ (cdHeap n)
          = (cdHeap 0, .ok Value.Nil))
    ∧ (∀ (n : Nat) (x : Value),
        loop cdNu (5 * n + 4) cdFun 1 ⟨[x], 0, NO_CATCH, false⟩ (cdHeap n)
          = (cdHeap 0, .ok Value.Nil)) := by
  refine ⟨?_, ?_, ?_⟩
  · intro ν fuel f env st h t hinstr
    simp [loop, exec, hinstr]
  · intro n x
    have := (cd_total n 0 x).1
    rwa [show 5 * n + (0 + 4) = 5 * n + 4 by ring] at this
  · intro n x
    refine loopFlat_imp_loop cdNu (5 * n + 4) cdFun 1 ⟨[x], 0, NO_CATCH, false⟩ (cdHeap n)
      (cdHeap 0) Value.Nil ?_
    have := (cd_total n 0 x).1
    rwa [show 5 * n + (0 + 4) = 5 * n + 4 by ring] at this

theorem C9_tail_calls_no_stack_growth_witness :
    loop cdNu 1 cdFun 1 ⟨[Value.Nil], 5, NO_CATCH, false⟩ (cdHeap 0)
        = loop cdNu 0 cdFun 1 ⟨[Value.Nil], 6, NO_CATCH, false⟩ (cdHeap 0)
      ∧ loopFlat cdNu 14 cdFun 1 ⟨[Value.Nil], 0, NO_CATCH, false⟩ (cdHeap 2)
        = (cdHeap 0, .ok Value.Nil) :=
  ⟨C9_tail_calls_no_stack_growth.1 cdNu 0 cdFun 1 ⟨[Value.Nil], 5, NO_CATCH, false⟩ (cdHeap 0)
      6 rfl,
    C9_tail_calls_no_stack_growth.2.1 2 Value.Nil⟩

end Pan
